import Mathlib

/-!
# Verification of `bin/template-maker.py`

A shallow embedding of the template-maker build-time code generator.

* Paths are modelled as lists of components (`PathC`); the filesystem is an
  association list from paths to file contents (lists of lines).
* The templating capability (`jinja2`) is an external collaborator; it is
  modelled as an opaque parameter `render : String → Dict → List String`
  mapping the template-definition relative name and the parameter dictionary
  to rendered lines.
* Python dictionaries are modelled by insertion lists where lookup prefers
  the most recent insertion (`dlookup` / `dictLit`): `dictLit` reverses the
  pairs written in literal order so that `List.find?` sees the last-inserted
  binding first, exactly Python's "later key wins" semantics.
* Python `int`s are `Int`; fallible operations return `Except TmplErr`.
* Recursion over generated files is not structurally terminating (the source
  performs unbounded recursion), so the traversal takes a fuel parameter;
  exhausting fuel yields the distinguished error `TmplErr.fuelOut`.
-/

namespace TemplateMaker

def TEMPLATE_FOLDER_NAME : String := "topology-templates"

def SNIPPETS_FOLDER_NAME : String := "snippets"

def TEMPLATE_SUFFIX : String := ".fppt"

/-- A filesystem path, as a list of components. -/
abbrev PathC := List String

/-- The filesystem: an association list from file paths to file lines. -/
abbrev FS := List (PathC × List String)

/-- Look up a file's lines; `some` exactly when the path exists as a regular file. -/
def lookupFS (fs : FS) (p : PathC) : Option (List String) :=
  (fs.find? (fun e => decide (e.1 = p))).map (fun e => e.2)

/-- Write (create or overwrite) a file. -/
def fsWrite (fs : FS) (p : PathC) (d : List String) : FS :=
  (p, d) :: fs.filter (fun e => decide (e.1 ≠ p))

/-- Python `Path.name`: the final path component. -/
def pathName (p : PathC) : String := p.getLast?.getD ("")

/-- Python `Path.parent`: all but the final component. -/
def pathParent (p : PathC) : PathC := p.dropLast

/-- Split a character list on `/` (the component structure of a relative path string). -/
def splitSlash : List Char → List (List Char)
  | [] => [[]]
  | c :: cs =>
    match splitSlash cs with
    | [] => [[]]
    | seg :: rest => if c = '/' then [] :: seg :: rest else (c :: seg) :: rest

/-- Python `Path(p) / rel`: append the components of the relative path string `rel`. -/
def pathJoin (p : PathC) (rel : String) : PathC :=
  p ++ (splitSlash rel.toList).map (fun seg => String.mk seg)

/-- Python `str.endswith`. -/
def strEndsWith (s suffix : String) : Bool :=
  suffix.toList.isSuffixOf s.toList

/-- Split a name at its last dot: `some (b, a)` with `cs = b ++ '.' :: a` and
no dot in `a`; `none` when `cs` has no dot. -/
def splitLastDot : List Char → Option (List Char × List Char)
  | [] => none
  | c :: cs =>
    match splitLastDot cs with
    | some (b, a) => some (c :: b, a)
    | none => if c = '.' then some ([], cs) else none

/-- Python `pathlib.PurePath.stem` on a file name: the name with its final suffix
removed, where a suffix only counts when the last dot is neither leading nor
trailing. -/
def py_stem (cs : List Char) : List Char :=
  match splitLastDot cs with
  | some (b, a) => if b ≠ [] ∧ a ≠ [] then b else cs
  | none => cs

/-- Python `pathlib.PurePath.suffix` on a file name (includes the dot, or `[]`). -/
def py_suffix (cs : List Char) : List Char :=
  match splitLastDot cs with
  | some (b, a) => if b ≠ [] ∧ a ≠ [] then '.' :: a else []
  | none => []

/-- The fstring `f"{ Path(path.stem).stem }{ path.suffix }"`: the template-definition
relative name computed from an invocation's file name. -/
def template_definition_of (name : String) : String :=
  String.mk (py_stem (py_stem name.toList) ++ py_suffix name.toList)

/-- The expression `Path(path.stem).suffix.lstrip(".")`: the template name (instance tag)
computed from an invocation's file name. -/
def template_name_of (name : String) : String :=
  String.mk ((py_suffix (py_stem name.toList)).dropWhile (fun c => c = '.'))

/-- Errors raised by the generator (Python raises `FileNotFoundError`/`IOError`
with distinguishing messages; `fuelOut` is the fuel artifact of the embedding). -/
inductive TmplErr
  | notFound (msg : String)
  | multiple (msg : String)
  | ioError (path : PathC)
  | fuelOut
  deriving DecidableEq

/-- Equality of fallible results is decidable, so concrete runs can be
checked by evaluation. -/
instance instDecidableEqExcept {ε α : Type} [DecidableEq ε] [DecidableEq α] :
    DecidableEq (Except ε α) := fun a b =>
  match a, b with
  | .error e1, .error e2 =>
    if h : e1 = e2 then isTrue (by rw [h]) else isFalse (fun hh => by cases hh; exact h rfl)
  | .ok v1, .ok v2 =>
    if h : v1 = v2 then isTrue (by rw [h]) else isFalse (fun hh => by cases hh; exact h rfl)
  | .error _, .ok _ => isFalse (fun hh => by cases hh)
  | .ok _, .error _ => isFalse (fun hh => by cases hh)

/-- Python `str(Path(...))` for display in error messages. -/
def pathStr (p : PathC) : String := String.intercalate ("/") p

/-- Python `','.join([str(location) for location in locations])`. -/
def commaJoin (ps : List PathC) : String :=
  String.intercalate (",") (ps.map pathStr)

/-- The candidate paths `Path(possible) / TEMPLATE_FOLDER_NAME / template_definition`
for each search location. -/
def possible_locations_of (template_invocation_path : PathC)
    (fprime_locations : List PathC) : List PathC :=
  fprime_locations.map (fun possible =>
    possible ++ [TEMPLATE_FOLDER_NAME, template_definition_of (pathName template_invocation_path)])

/-- The candidates that exist as regular files. -/
def template_locations_of (fs : FS) (template_invocation_path : PathC)
    (fprime_locations : List PathC) : List PathC :=
  (possible_locations_of template_invocation_path fprime_locations).filter
    (fun possible => (lookupFS fs possible).isSome)

/-- Resolution, `template_information`: calculate the template definition path, the
definition relative name, and the template name from a template invocation. -/
def template_information (fs : FS) (template_invocation_path : PathC)
    (fprime_locations : List PathC) : Except TmplErr (PathC × String × String) :=
  let template_definition := template_definition_of (pathName template_invocation_path)
  let template_name := template_name_of (pathName template_invocation_path)
  match template_locations_of fs template_invocation_path fprime_locations with
  | [] => .error (.notFound ("No template found in any of: " ++
      commaJoin (possible_locations_of template_invocation_path fprime_locations)))
  | [single] => .ok (single, template_definition, template_name)
  | more => .error (.multiple ("Multiple template definitions: " ++ commaJoin more))

/-- One of the two quote characters accepted by the include pattern. -/
def isQuoteChar (c : Char) : Bool := c = '\'' || c = '"'

/-- The pattern `re.match(" *include +['\x22]([^'\x22]+)['\x22]", line)`: the quoted
include target of a line, when the line matches the include pattern. -/
def matchInclude (cs : List Char) : Option String :=
  let afterSpaces := cs.dropWhile (fun c => c = ' ')
  if afterSpaces.take 7 = "include".toList then
    let afterKeyword := afterSpaces.drop 7
    match afterKeyword with
    | ' ' :: _ =>
      let afterGap := afterKeyword.dropWhile (fun c => c = ' ')
      match afterGap with
      | q :: rest =>
        if isQuoteChar q then
          let target := rest.takeWhile (fun c => ¬ isQuoteChar c)
          match rest.drop target.length with
          | q2 :: _ =>
            if isQuoteChar q2 ∧ target ≠ [] then some (String.mk target) else none
          | [] => none
        else none
      | [] => none
    | _ => none
  else none

/-- The per-include recursion of `get_template_invocations` over the list of
plain includes, for a fixed one-file scanner `g` (the scanner at one less
fuel). -/
def gtiListF (g : PathC → Except TmplErr (List PathC)) :
    List PathC → Except TmplErr (List (List PathC))
  | [] => .ok []
  | p :: ps =>
    match g p with
    | .error e => .error e
    | .ok r =>
      match gtiListF g ps with
      | .error e => .error e
      | .ok rs => .ok (r :: rs)

/-- Scanning, `get_template_invocations`: the template invocations contained within the
supplied file, including those found recursively through plain includes. -/
def get_template_invocations (fs : FS) (fprime_locations : List PathC) :
    Nat → PathC → Except TmplErr (List PathC)
  | 0, _ => .error .fuelOut
  | Nat.succ fuel, path =>
    match lookupFS fs path with
    | none => .error (.ioError path)
    | some lines =>
      let ms := lines.filterMap (fun line => matchInclude line.toList)
      let invocations := (ms.filter (fun m => strEndsWith m TEMPLATE_SUFFIX)).map
        (fun m => pathJoin (pathParent path) m)
      let includes := (ms.filter (fun m => ¬ strEndsWith m TEMPLATE_SUFFIX)).map
        (fun m => pathJoin (pathParent path) m)
      match gtiListF (fun p => get_template_invocations fs fprime_locations fuel p) includes with
      | .error e => .error e
      | .ok recursive_invocations => .ok (invocations ++ recursive_invocations.flatten)

/-- Writing, `manufacture_files`: write out the rendered file and copy the snippet tree
found beside the template definition to the snippet directory beside the
output.  Returns the updated filesystem and the list of snippet source files
copied (the Python function returns the latter; the filesystem is the disk). -/
def manufacture_files (fs : FS) (data : List String) (output_file : PathC)
    (base_template : PathC) : FS × List PathC :=
  let snippets_output := pathParent output_file ++ [SNIPPETS_FOLDER_NAME]
  let snippets_input := pathParent base_template ++ [SNIPPETS_FOLDER_NAME]
  let walk := fs.filter (fun e => decide (snippets_input <+: e.1 ∧ e.1 ≠ snippets_input))
  let fsCopied := walk.foldl
    (fun acc e => fsWrite acc (snippets_output ++ e.1.drop snippets_input.length) e.2) fs
  let snippets := walk.map (fun e => e.1)
  (fsWrite fsCopied output_file data, snippets)

/-- A value of the parameter dictionary handed to the renderer. -/
inductive Value
  | str (s : String)
  | int (n : Int)
  deriving DecidableEq

/-- A Python dict, as its insertion sequence with the most recent insertion
first; `dlookup` returns the most recent binding of a key. -/
abbrev Dict := List (String × Value)

/-- Build a dict from pairs written in literal order (later pairs win). -/
def dictLit (pairs : List (String × Value)) : Dict := pairs.reverse

/-- Dict lookup: the most recently inserted binding of `k`. -/
def dlookup (d : Dict) (k : String) : Option Value :=
  (d.find? (fun e => decide (e.1 = k))).map (fun e => e.2)

/-- The instance-counter table `counts` (a Python dict from definition name to int). -/
abbrev Counts := List (String × Int)

/-- Python `counts.get(k, dflt)`. -/
def cget (counts : Counts) (k : String) (dflt : Int) : Int :=
  ((counts.find? (fun e => decide (e.1 = k))).map (fun e => e.2)).getD dflt

/-- Python `counts[k] = v`. -/
def cset (counts : Counts) (k : String) (v : Int) : Counts := (k, v) :: counts

/-- The `template_parameters` dict literal of `build_templates`:
`\x7b"template_name": ..., "template_index": ..., "template_offset": ..., **base_parameters\x7d`. -/
def mkTemplateParameters (template_name : String) (template_index template_offset : Int)
    (base_parameters : Dict) : Dict :=
  dictLit ([("template_name", Value.str template_name),
            ("template_index", Value.int template_index),
            ("template_offset", Value.int template_offset)] ++ base_parameters)

/-- One rendered invocation, as recorded by the run trace: the definition
name and resolved path, the template name, the computed index and offset, the
output path written, the snippet sources copied, and the parameter dict that
was handed to the renderer. -/
structure RenderRec where
  defn : String
  tname : String
  tpath : PathC
  index : Int
  offset : Int
  out : PathC
  snips : List PathC
  params : Dict
  deriving DecidableEq

/-- The state threaded through the invocation loop of `build_templates`:
the filesystem, the shared `counts` dict, the running `offset`, and the
accumulators `local_template_files`, `invocations`, `snippets`, plus the
trace of rendered invocations. -/
structure LoopSt where
  fs : FS
  counts : Counts
  offset : Int
  local_template_files : List PathC
  invocations : List PathC
  snippets : List PathC
  trace : List RenderRec
  deriving DecidableEq

/-- The `for invocation in template_invocations:` loop body of
`build_templates`: resolve, count, build parameters, render, write. -/
def processInvocations (render : String → Dict → List String)
    (fprime_locations : List PathC) (step : Int) (base_parameters : Dict) :
    List PathC → LoopSt → Except TmplErr LoopSt
  | [], st => .ok st
  | invocation :: rest, st =>
    match template_information st.fs invocation fprime_locations with
    | .error e => .error e
    | .ok (template_path, template_definition, template_name) =>
      let newCount := cget st.counts template_definition (-1) + 1
      let counts := cset st.counts template_definition newCount
      let template_parameters :=
        mkTemplateParameters template_name newCount st.offset base_parameters
      let rendered := render template_definition template_parameters
      let manufactured := manufacture_files st.fs rendered invocation template_path
      processInvocations render fprime_locations step base_parameters rest
        { fs := manufactured.1
          counts := counts
          offset := st.offset + step
          local_template_files := st.local_template_files ++ [template_path]
          invocations := st.invocations ++ [invocation]
          snippets := st.snippets ++ manufactured.2
          trace := st.trace ++ [{ defn := template_definition, tname := template_name,
                                  tpath := template_path, index := newCount,
                                  offset := st.offset, out := invocation,
                                  snips := manufactured.2,
                                  params := template_parameters }] }

/-- The result of one `build_templates` call: the filesystem and `counts`
dict after the call (both shared with the caller in Python), the returned
list of produced paths, and the trace of all rendered invocations of the
call and its recursive calls, in discovery order. -/
structure BuildOut where
  fs : FS
  counts : Counts
  produced : List PathC
  trace : List RenderRec
  deriving DecidableEq

/-- The recursion of `build_templates` into the invocation outputs just
written (the list comprehension of the source), for a fixed builder `b`
(the engine at one less fuel).  It threads the filesystem and the `counts`
dict (shared mutable objects in Python) but hands every call the same
`offset` scalar (a Python int, passed by value). -/
def buildListF (b : FS → PathC → Int → Counts → Except TmplErr BuildOut) :
    FS → List PathC → Int → Counts →
    Except TmplErr (FS × Counts × List (List PathC) × List RenderRec)
  | fs, [], _, counts => .ok (fs, counts, [], [])
  | fs, invocation :: rest, offset, counts =>
    match b fs invocation offset counts with
    | .error e => .error e
    | .ok out =>
      match buildListF b out.fs rest offset out.counts with
      | .error e => .error e
      | .ok tail => .ok (tail.1, tail.2.1, out.produced :: tail.2.2.1, out.trace ++ tail.2.2.2)

/-- The engine, `build_templates`: build needed templates from an input file, recursing
into every invocation output just written. -/
def build_templates (render : String → Dict → List String)
    (fprime_locations : List PathC) (step : Int) (config : Dict) :
    Nat → FS → PathC → Int → Counts → Except TmplErr BuildOut
  | 0, _, _, _, _ => .error .fuelOut
  | Nat.succ fuel, fs, path, offset, counts =>
    match get_template_invocations fs fprime_locations (Nat.succ fuel) path with
    | .error e => .error e
    | .ok template_invocations =>
      match processInvocations render fprime_locations step config template_invocations
          { fs := fs, counts := counts, offset := offset, local_template_files := [],
            invocations := [], snippets := [], trace := [] } with
      | .error e => .error e
      | .ok st =>
        match buildListF
            (fun fs2 p off c =>
              build_templates render fprime_locations step config fuel fs2 p off c)
            st.fs st.invocations st.offset st.counts with
        | .error e => .error e
        | .ok rest =>
          .ok { fs := rest.1, counts := rest.2.1,
                produced := st.local_template_files ++ st.snippets ++ rest.2.2.1.flatten,
                trace := st.trace ++ rest.2.2.2 }

/-- The per-root loop of `main`: each root file is built with the default
arguments `offset=0` and `counts=None` (a fresh empty dict), while the
filesystem persists across roots. -/
def runRoots (render : String → Dict → List String) (fprime_locations : List PathC)
    (step : Int) (config : Dict) (fuel : Nat) :
    FS → List PathC → Except TmplErr (FS × List BuildOut)
  | fs, [] => .ok (fs, [])
  | fs, path :: rest =>
    match build_templates render fprime_locations step config fuel fs path 0 [] with
    | .error e => .error e
    | .ok out =>
      match runRoots render fprime_locations step config fuel out.fs rest with
      | .error e => .error e
      | .ok tail => .ok (tail.1, out :: tail.2)

/-! ## Specification-support definitions -/

/-- The number of rendered invocations of definition `d` in a trace. -/
def nOcc (d : String) (tr : List RenderRec) : Nat :=
  (tr.filter (fun r => decide (r.defn = d))).length

/-- The instance-index discipline: relative to a table `c` of
already-assigned last indices (`-1` when none), every record's index is one
more than the table's entry for its definition, and the table is advanced
record by record. -/
def IdxOk (c : String → Int) : List RenderRec → Prop
  | [] => True
  | r :: tr => r.index = c r.defn + 1 ∧ IdxOk (fun d => if d = r.defn then r.index else c d) tr

/-- The offset discipline of one invocation batch: offsets start at `base`
and advance by exactly `step` per record. -/
def OffsetsArith (base step : Int) : List RenderRec → Prop
  | [] => True
  | r :: tr => r.offset = base ∧ OffsetsArith (base + step) step tr

/-- Well-formedness of a rendered-invocation record of a run with external
configuration `config`: the parameter dict handed to the renderer is exactly
the dict literal built by `build_templates`, and the output path written is
an invocation target (its file name carries the reserved template suffix). -/
def RecWF (config : Dict) (r : RenderRec) : Prop :=
  r.params = mkTemplateParameters r.tname r.index r.offset config ∧
  strEndsWith (pathName r.out) TEMPLATE_SUFFIX = true

/-- The outcome of template resolution, with diagnostic messages erased. -/
inductive Outcome
  | notFound
  | multiple
  | resolved (r : PathC × String × String)
  | otherErr
  deriving DecidableEq

/-- Erase the diagnostic message from a resolution result. -/
def outcomeOf : Except TmplErr (PathC × String × String) → Outcome
  | .ok r => .resolved r
  | .error (.notFound _) => .notFound
  | .error (.multiple _) => .multiple
  | .error _ => .otherErr

/-! ## Concrete runs used by witnesses and counterexamples -/

/-- A renderer producing empty output (no nested invocations). -/
def demoRender0 : String → Dict → List String := fun _ _ => []

/-- A renderer whose outputs for `a.fppt` and `b.fppt` each declare one
further invocation. -/
def demoRenderBranch : String → Dict → List String := fun td _ =>
  if td = "a.fppt" then ["include \"c.z.fppt\""]
  else if td = "b.fppt" then ["include \"d.w.fppt\""]
  else []

/-- One root with a single invocation of `a.fppt`. -/
def demoFS1 : FS :=
  [ (["root.fpp"], ["include \"a.x.fppt\""]),
    (["lib", "topology-templates", "a.fppt"], ["TEMPLATE BODY"]) ]

/-- One root with two sibling invocations whose rendered outputs each
contain a further invocation. -/
def demoFS2 : FS :=
  [ (["root.fpp"], ["include \"a.x.fppt\"", "include \"b.y.fppt\""]),
    (["lib", "topology-templates", "a.fppt"], []),
    (["lib", "topology-templates", "b.fppt"], []),
    (["lib", "topology-templates", "c.fppt"], []),
    (["lib", "topology-templates", "d.fppt"], []) ]

/-- One root, one invocation, and a snippet file beside the definition. -/
def demoFS3 : FS :=
  [ (["root.fpp"], ["include \"a.x.fppt\""]),
    (["lib", "topology-templates", "a.fppt"], ["TEMPLATE BODY"]),
    (["lib", "topology-templates", "snippets", "sub", "readme.txt"], ["hello"]) ]

/-- Two search locations both holding a definition `b.fppt`. -/
def demoFS4 : FS :=
  [ (["lib1", "topology-templates", "b.fppt"], []),
    (["lib2", "topology-templates", "b.fppt"], []) ]

/-- Two root files, each with one invocation of the same definition. -/
def demoFS5 : FS :=
  [ (["root1.fpp"], ["include \"a.x.fppt\""]),
    (["root2.fpp"], ["include \"a.y.fppt\""]),
    (["lib", "topology-templates", "a.fppt"], []) ]

/-- One root invoking the same definition twice (spec scenario: `step=2`). -/
def demoFS6 : FS :=
  [ (["topo.fpp"], ["include \"a.x.fppt\"", "include \"a.y.fppt\""]),
    (["lib", "topology-templates", "a.fppt"], []) ]

/-- A configuration that collides with the computed key `template_offset`. -/
def demoCfg : Dict := [("template_offset", Value.int 999)]

/-- A default `BuildOut` for total extraction of demo results. -/
def emptyBuildOut : BuildOut := { fs := [], counts := [], produced := [], trace := [] }

/-- The result of the single-invocation demo run. -/
def demo1Out : BuildOut :=
  (build_templates demoRender0 [["lib"]] 1 [] 4 demoFS1 ["root.fpp"] 0 []).toOption.getD
    emptyBuildOut

/-- The result of the snippet demo run. -/
def demo3Out : BuildOut :=
  (build_templates demoRender0 [["lib"]] 1 [] 4 demoFS3 ["root.fpp"] 0 []).toOption.getD
    emptyBuildOut

/-- The result of the colliding-configuration demo run. -/
def demoCfgOut : BuildOut :=
  (build_templates demoRender0 [["lib"]] 1 demoCfg 4 demoFS1 ["root.fpp"] 0 []).toOption.getD
    emptyBuildOut

/-- The result of the two-root demo run. -/
def demo5Res : FS × List BuildOut :=
  (runRoots demoRender0 [["lib"]] 1 [] 4 demoFS5
    [["root1.fpp"], ["root2.fpp"]]).toOption.getD ([], [])

/-- The initial loop state for the invocation-batch demo. -/
def demoLoopSt : LoopSt :=
  { fs := demoFS6, counts := [], offset := 0, local_template_files := [], invocations := [],
    snippets := [], trace := [] }

/-- The loop state after processing the two-invocation batch of `demoFS6`. -/
def demoLoopOut : LoopSt :=
  (processInvocations demoRender0 [["lib"]] 2 []
    [["a.x.fppt"], ["a.y.fppt"]] demoLoopSt).toOption.getD demoLoopSt

/-- The result of the repeated-definition demo run (spec scenario: `step=2`). -/
def demo6Out : BuildOut :=
  (build_templates demoRender0 [["lib"]] 2 [] 4 demoFS6 ["topo.fpp"] 0 []).toOption.getD
    emptyBuildOut

/-- The invariants of one `build_templates` call, relative to the initial
filesystem `fs₀`, start offset `offset₀` and counter table `counts₀`:
well-formed trace records, counter bookkeeping, the instance-index
discipline, the produced-path characterization, the head-offset law, and
the frame property (only suffix-named outputs and snippet trees change). -/
def BuildClaims (config : Dict) (fs₀ : FS) (offset₀ : Int) (counts₀ : Counts)
    (out : BuildOut) : Prop :=
  (∀ r ∈ out.trace, RecWF config r) ∧
  (∀ d, cget out.counts d (-1) = cget counts₀ d (-1) + (nOcc d out.trace : Int)) ∧
  IdxOk (fun d => cget counts₀ d (-1)) out.trace ∧
  (∀ p, p ∈ out.produced ↔ ∃ r ∈ out.trace, p = r.tpath ∨ p ∈ r.snips) ∧
  (∀ r, out.trace.head? = some r → r.offset = offset₀) ∧
  (∀ q, strEndsWith (pathName q) TEMPLATE_SUFFIX = false → SNIPPETS_FOLDER_NAME ∉ q →
    lookupFS out.fs q = lookupFS fs₀ q)

/-- The analogous invariants for the recursion list `buildList`. -/
def BuildListClaims (config : Dict) (fs₀ : FS) (counts₀ : Counts)
    (res : FS × Counts × List (List PathC) × List RenderRec) : Prop :=
  (∀ r ∈ res.2.2.2, RecWF config r) ∧
  (∀ d, cget res.2.1 d (-1) = cget counts₀ d (-1) + (nOcc d res.2.2.2 : Int)) ∧
  IdxOk (fun d => cget counts₀ d (-1)) res.2.2.2 ∧
  (∀ p, p ∈ res.2.2.1.flatten ↔ ∃ r ∈ res.2.2.2, p = r.tpath ∨ p ∈ r.snips) ∧
  (∀ q, strEndsWith (pathName q) TEMPLATE_SUFFIX = false → SNIPPETS_FOLDER_NAME ∉ q →
    lookupFS res.1 q = lookupFS fs₀ q)

/-! ## Name-computation lemmas -/

theorem splitLastDot_eq_none (cs : List Char) (h : '.' ∉ cs) : splitLastDot cs = none := by
  induction cs with
  | nil => rfl
  | cons c cs ih =>
    have hc : c ≠ '.' := fun hh => h (hh ▸ List.mem_cons_self c cs)
    have hcs : '.' ∉ cs := fun hh => h (List.mem_cons_of_mem c hh)
    simp [splitLastDot, ih hcs, hc]

theorem splitLastDot_append (b a : List Char) (ha : '.' ∉ a) :
    splitLastDot (b ++ '.' :: a) = some (b, a) := by
  induction b with
  | nil => simp [splitLastDot, splitLastDot_eq_none a ha]
  | cons c b ih => simp [splitLastDot, ih]

theorem dropWhile_eq_self_of_not_mem (l : List Char) (c : Char) (hc : c ∉ l) :
    l.dropWhile (fun x => x = c) = l := by
  cases l with
  | nil => rfl
  | cons a as =>
    have : a ≠ c := fun hh => hc (hh ▸ List.mem_cons_self a as)
    simp [List.dropWhile, this]

/-! ## Path-splitting lemmas -/

theorem splitSlash_ne_nil (cs : List Char) : splitSlash cs ≠ [] := by
  cases cs with
  | nil => simp [splitSlash]
  | cons c cs =>
    simp only [splitSlash]
    rcases h : splitSlash cs with _ | ⟨seg, rest⟩
    · simp
    · by_cases hc : c = '/' <;> simp [hc]

theorem splitSlash_no_slash (cs : List Char) (h : '/' ∉ cs) : splitSlash cs = [cs] := by
  induction cs with
  | nil => rfl
  | cons c cs ih =>
    have hc : c ≠ '/' := fun hh => h (hh ▸ List.mem_cons_self c cs)
    have hcs : '/' ∉ cs := fun hh => h (List.mem_cons_of_mem c hh)
    simp [splitSlash, ih hcs, hc]

theorem splitSlash_single (cs seg : List Char) (h : splitSlash cs = [seg]) :
    seg = cs ∧ '/' ∉ cs := by
  induction cs generalizing seg with
  | nil =>
    simp only [splitSlash, List.cons.injEq] at h
    obtain ⟨h1, -⟩ := h
    subst h1
    exact ⟨rfl, by simp⟩
  | cons c cs ih =>
    simp only [splitSlash] at h
    rcases hsp : splitSlash cs with _ | ⟨seg1, rest⟩
    · exact absurd hsp (splitSlash_ne_nil cs)
    · rw [hsp] at h
      by_cases hc : c = '/'
      · simp [hc] at h
      · simp only [hc, if_false] at h
        have hrest : rest = [] := by
          cases rest with
          | nil => rfl
          | cons x xs => simp at h
        subst hrest
        have hse : c :: seg1 = seg := by simpa using h
        obtain ⟨h1, h2⟩ := ih seg1 hsp
        subst h1
        refine ⟨hse.symm, ?_⟩
        intro hm
        rcases List.mem_cons.mp hm with h3 | h3
        · exact hc h3.symm
        · exact h2 h3

theorem suffix_getLast_splitSlash (cs suf lastSeg : List Char) (hs : suf <:+ cs)
    (hslash : '/' ∉ suf) (hl : (splitSlash cs).getLast? = some lastSeg) : suf <:+ lastSeg := by
  induction cs generalizing suf lastSeg with
  | nil =>
    rw [List.suffix_nil] at hs
    subst hs
    simp only [splitSlash] at hl
    simp only [List.getLast?_singleton, Option.some.injEq] at hl
    subst hl
    exact List.nil_suffix
  | cons c cs ih =>
    simp only [splitSlash] at hl
    rcases hsp : splitSlash cs with _ | ⟨seg, rest⟩
    · exact absurd hsp (splitSlash_ne_nil cs)
    · rw [hsp] at hl
      by_cases hc : c = '/'
      · simp only [hc, if_true] at hl
        rw [List.getLast?_cons_cons] at hl
        rw [← hsp] at hl
        rcases List.suffix_cons_iff.mp hs with heq | htail
        · exact absurd (heq ▸ (hc ▸ List.mem_cons_self c cs)) hslash
        · exact ih suf lastSeg htail hslash hl
      · simp only [hc, if_false] at hl
        cases rest with
        | nil =>
          simp only [List.getLast?_singleton, Option.some.injEq] at hl
          subst hl
          rcases List.suffix_cons_iff.mp hs with heq | htail
          · obtain ⟨h1, -⟩ := splitSlash_single cs seg hsp
            subst h1
            exact heq ▸ List.suffix_refl _
          · have h1 : (splitSlash cs).getLast? = some seg := by simp [hsp]
            exact (ih suf seg htail hslash h1).trans (List.suffix_cons c seg)
        | cons r rest2 =>
          rw [List.getLast?_cons_cons, ← List.getLast?_cons_cons (b := r) (a := seg), ← hsp] at hl
          rcases List.suffix_cons_iff.mp hs with heq | htail
          · exfalso
            have hslashcs : '/' ∈ cs := by
              by_contra hno
              rw [splitSlash_no_slash cs hno] at hsp
              simp at hsp
            exact hslash (heq ▸ List.mem_cons_of_mem c hslashcs)
          · exact ih suf lastSeg htail hslash hl

theorem strEndsWith_iff (s suffix : String) :
    strEndsWith s suffix = true ↔ suffix.toList <:+ s.toList := by
  unfold strEndsWith
  exact List.isSuffixOf_iff_suffix

theorem strEndsWith_pathName_pathJoin (p : PathC) (m : String)
    (h : strEndsWith m TEMPLATE_SUFFIX = true) :
    strEndsWith (pathName (pathJoin p m)) TEMPLATE_SUFFIX = true := by
  have hsuf : TEMPLATE_SUFFIX.toList <:+ m.toList := (strEndsWith_iff m TEMPLATE_SUFFIX).mp h
  have hslash : '/' ∉ TEMPLATE_SUFFIX.toList := by decide
  have hne := splitSlash_ne_nil m.toList
  obtain ⟨lastSeg, hl⟩ : ∃ l, (splitSlash m.toList).getLast? = some l :=
    ⟨(splitSlash m.toList).getLast hne, List.getLast?_eq_getLast _ hne⟩
  have hlast := suffix_getLast_splitSlash m.toList TEMPLATE_SUFFIX.toList lastSeg hsuf hslash hl
  have hmapne : (splitSlash m.toList).map (fun seg => String.mk seg) ≠ [] := by
    simp [List.map_eq_nil_iff, splitSlash_ne_nil]
  have hname : pathName (pathJoin p m) = String.mk lastSeg := by
    unfold pathName pathJoin
    rw [List.getLast?_append_of_ne_nil p hmapne, List.getLast?_map, hl]
    rfl
  rw [hname, strEndsWith_iff]
  exact hlast

/-! ## Dictionary lemmas -/

theorem option_map_or {α β : Type} (f : α → β) (a b : Option α) :
    (a.or b).map f = (a.map f).or (b.map f) := by
  cases a <;> rfl

theorem dlookup_append (d₁ d₂ : Dict) (k : String) :
    dlookup (d₁ ++ d₂) k = (dlookup d₁ k).or (dlookup d₂ k) := by
  unfold dlookup
  rw [List.find?_append]
  exact option_map_or _ _ _

theorem dlookup_mkTemplateParameters (n : String) (i o : Int) (base : Dict) (k : String) :
    dlookup (mkTemplateParameters n i o base) k =
      (dlookup (dictLit base) k).or
        (dlookup (dictLit [("template_name", Value.str n), ("template_index", Value.int i),
                           ("template_offset", Value.int o)]) k) := by
  unfold mkTemplateParameters dictLit
  rw [List.reverse_append]
  exact dlookup_append _ _ k

/-! ## Filesystem lemmas -/

theorem lookupFS_cons (e : PathC × List String) (fs : FS) (q : PathC) :
    lookupFS (e :: fs) q = if e.1 = q then some e.2 else lookupFS fs q := by
  unfold lookupFS
  rw [List.find?_cons]
  by_cases h : e.1 = q <;> simp [h]

theorem lookupFS_filter_ne (fs : FS) (p q : PathC) (h : q ≠ p) :
    lookupFS (fs.filter (fun e => decide (e.1 ≠ p))) q = lookupFS fs q := by
  induction fs with
  | nil => rfl
  | cons e fs ih =>
    rw [List.filter_cons]
    by_cases hep : e.1 = p
    · have h1 : (decide (e.1 ≠ p)) = false := by simp [hep]
      rw [h1]
      simp only [Bool.false_eq_true, if_false]
      rw [ih, lookupFS_cons]
      have h2 : ¬ e.1 = q := fun hh => h ((hh ▸ hep : q = p))
      simp [h2]
    · have h1 : (decide (e.1 ≠ p)) = true := by simp [hep]
      rw [h1]
      simp only [if_true]
      rw [lookupFS_cons, lookupFS_cons, ih]

theorem lookupFS_fsWrite (fs : FS) (p : PathC) (d : List String) (q : PathC) :
    lookupFS (fsWrite fs p d) q = if q = p then some d else lookupFS fs q := by
  unfold fsWrite
  rw [lookupFS_cons]
  by_cases h : q = p
  · simp [h]
  · have h1 : ¬ p = q := fun hh => h hh.symm
    simp only [h1, if_false, h]
    exact lookupFS_filter_ne fs p q h

theorem lookupFS_some (fs : FS) (p : PathC) (v : List String) (h : lookupFS fs p = some v) :
    ∃ e ∈ fs, e.1 = p ∧ e.2 = v := by
  unfold lookupFS at h
  rcases hf : fs.find? (fun e => decide (e.1 = p)) with _ | e
  · rw [hf] at h; cases h
  · rw [hf] at h
    have h2 : e.2 = v := by simpa using h
    refine ⟨e, List.mem_of_find?_eq_some hf, ?_, h2⟩
    simpa using List.find?_some hf

/-! ## Snippet-copy lemmas -/

theorem lookupFS_copyFold (ws : List (PathC × List String)) (acc : FS) (snipOut snipIn : PathC)
    (q : PathC) (hq : ∀ e ∈ ws, q ≠ snipOut ++ e.1.drop snipIn.length) :
    lookupFS (ws.foldl (fun acc e => fsWrite acc (snipOut ++ e.1.drop snipIn.length) e.2) acc) q =
      lookupFS acc q := by
  induction ws generalizing acc with
  | nil => rfl
  | cons e ws ih =>
    rw [List.foldl_cons]
    rw [ih _ (fun e2 he2 => hq e2 (List.mem_cons_of_mem e he2))]
    rw [lookupFS_fsWrite]
    simp [hq e (List.mem_cons_self e ws)]

theorem lookupFS_copyFold_hit (ws : List (PathC × List String)) (acc : FS)
    (snipOut snipIn : PathC) (e0 : PathC × List String) (he0 : e0 ∈ ws)
    (hpre : ∀ e ∈ ws, snipIn <+: e.1)
    (hnodup : (ws.map (fun e => e.1)).Nodup) :
    lookupFS (ws.foldl (fun acc e => fsWrite acc (snipOut ++ e.1.drop snipIn.length) e.2) acc)
      (snipOut ++ e0.1.drop snipIn.length) = some e0.2 := by
  induction ws generalizing acc with
  | nil => cases he0
  | cons e ws ih =>
    rw [List.foldl_cons]
    have hnodup2 : (ws.map (fun e => e.1)).Nodup := (List.nodup_cons.mp hnodup).2
    rcases List.mem_cons.mp he0 with heq | hmem
    · subst heq
      have hrest : ∀ e2 ∈ ws, (snipOut ++ e0.1.drop snipIn.length) ≠
          (snipOut ++ e2.1.drop snipIn.length) := by
        intro e2 he2 hcontra
        have hdrop : e0.1.drop snipIn.length = e2.1.drop snipIn.length :=
          List.append_cancel_left hcontra
        have h1 : snipIn ++ e0.1.drop snipIn.length = e0.1 :=
          List.prefix_iff_eq_append.mp (hpre e0 (List.mem_cons_self e0 ws))
        have h2 : snipIn ++ e2.1.drop snipIn.length = e2.1 :=
          List.prefix_iff_eq_append.mp (hpre e2 (List.mem_cons_of_mem e0 he2))
        have hkeys : e0.1 = e2.1 := by rw [← h1, ← h2, hdrop]
        have : e0.1 ∉ ws.map (fun e => e.1) := (List.nodup_cons.mp hnodup).1
        exact this (hkeys ▸ List.mem_map_of_mem (fun e => e.1) he2)
      rw [lookupFS_copyFold ws _ snipOut snipIn _ hrest]
      rw [lookupFS_fsWrite]
      simp
    · exact ih (fsWrite acc (snipOut ++ e.1.drop snipIn.length) e.2) hmem
        (fun e2 he2 => hpre e2 (List.mem_cons_of_mem e he2)) hnodup2

theorem manufacture_files_frame (fs : FS) (data : List String)
    (output_file base_template q : PathC)
    (hout : q ≠ output_file) (hsnip : SNIPPETS_FOLDER_NAME ∉ q) :
    lookupFS (manufacture_files fs data output_file base_template).1 q = lookupFS fs q := by
  unfold manufacture_files
  simp only
  rw [lookupFS_fsWrite]
  simp only [hout, if_false]
  apply lookupFS_copyFold
  intro e _ heq
  apply hsnip
  rw [heq]
  exact List.mem_append.mpr (Or.inl (List.mem_append.mpr (Or.inr (List.mem_singleton.mpr rfl))))

theorem manufacture_files_copies (fs : FS) (data : List String)
    (output_file base_template : PathC) (rel : PathC) (content : List String)
    (hnodup : (fs.map (fun e => e.1)).Nodup) (hrel : rel ≠ [])
    (hsrc : lookupFS fs ((pathParent base_template ++ [SNIPPETS_FOLDER_NAME]) ++ rel) =
      some content) :
    lookupFS (manufacture_files fs data output_file base_template).1
      ((pathParent output_file ++ [SNIPPETS_FOLDER_NAME]) ++ rel) = some content := by
  obtain ⟨e0, he0fs, he0key, he0val⟩ := lookupFS_some _ _ _ hsrc
  unfold manufacture_files
  simp only
  have hdest_ne : (pathParent output_file ++ [SNIPPETS_FOLDER_NAME]) ++ rel ≠ output_file := by
    intro hcontra
    have h1 : ((pathParent output_file ++ [SNIPPETS_FOLDER_NAME]) ++ rel).length =
        output_file.length := by rw [hcontra]
    have h2 : (pathParent output_file).length = output_file.length - 1 := by
      unfold pathParent
      exact List.length_dropLast output_file
    have h3 : rel.length ≠ 0 := fun hh => hrel (List.length_eq_zero.mp hh)
    simp only [List.length_append, List.length_singleton] at h1
    omega
  rw [lookupFS_fsWrite]
  simp only [hdest_ne, if_false]
  have hmemwalk : e0 ∈ fs.filter (fun e =>
      decide ((pathParent base_template ++ [SNIPPETS_FOLDER_NAME]) <+: e.1 ∧
        e.1 ≠ pathParent base_template ++ [SNIPPETS_FOLDER_NAME])) := by
    rw [List.mem_filter]
    refine ⟨he0fs, ?_⟩
    rw [decide_eq_true_eq]
    constructor
    · rw [he0key]; exact List.prefix_append _ _
    · rw [he0key]
      intro hcontra
      have : ((pathParent base_template ++ [SNIPPETS_FOLDER_NAME]) ++ rel).length =
          (pathParent base_template ++ [SNIPPETS_FOLDER_NAME]).length := by rw [hcontra]
      have h3 : rel.length ≠ 0 := fun hh => hrel (List.length_eq_zero.mp hh)
      simp only [List.length_append] at this
      omega
  have hpre : ∀ e ∈ fs.filter (fun e =>
      decide ((pathParent base_template ++ [SNIPPETS_FOLDER_NAME]) <+: e.1 ∧
        e.1 ≠ pathParent base_template ++ [SNIPPETS_FOLDER_NAME])),
      (pathParent base_template ++ [SNIPPETS_FOLDER_NAME]) <+: e.1 := by
    intro e he
    have := (List.mem_filter.mp he).2
    rw [decide_eq_true_eq] at this
    exact this.1
  have hnodupw : ((fs.filter (fun e =>
      decide ((pathParent base_template ++ [SNIPPETS_FOLDER_NAME]) <+: e.1 ∧
        e.1 ≠ pathParent base_template ++ [SNIPPETS_FOLDER_NAME]))).map
        (fun e => e.1)).Nodup :=
    hnodup.sublist ((List.filter_sublist fs).map (fun e => e.1))
  have hdrop : e0.1.drop (pathParent base_template ++ [SNIPPETS_FOLDER_NAME]).length = rel := by
    rw [he0key]
    exact List.drop_left _ _
  have := lookupFS_copyFold_hit _ fs
    (pathParent output_file ++ [SNIPPETS_FOLDER_NAME])
    (pathParent base_template ++ [SNIPPETS_FOLDER_NAME]) e0 hmemwalk hpre hnodupw
  rw [hdrop] at this
  rw [this, he0val]

/-! ## Counter and offset discipline lemmas -/

theorem nOcc_nil (d : String) : nOcc d [] = 0 := rfl

theorem nOcc_cons (d : String) (r : RenderRec) (tr : List RenderRec) :
    nOcc d (r :: tr) = (if r.defn = d then 1 else 0) + nOcc d tr := by
  unfold nOcc
  rw [List.filter_cons]
  by_cases h : r.defn = d
  · simp [h]
    omega
  · simp [h]

theorem nOcc_append (d : String) (t₁ t₂ : List RenderRec) :
    nOcc d (t₁ ++ t₂) = nOcc d t₁ + nOcc d t₂ := by
  unfold nOcc
  rw [List.filter_append, List.length_append]

theorem cget_cset (c : Counts) (k : String) (v : Int) (d : String) (dflt : Int) :
    cget (cset c k v) d dflt = if d = k then v else cget c d dflt := by
  unfold cget cset
  rw [List.find?_cons]
  by_cases h : d = k
  · have h2 : (decide ((k, v).1 = d)) = true := by simp [h]
    rw [h2]
    simp [h]
  · have h2 : (decide ((k, v).1 = d)) = false := by simp; exact fun hh => h hh.symm
    rw [h2]
    simp [h]

theorem IdxOk_congr (c₁ c₂ : String → Int) (h : ∀ d, c₁ d = c₂ d) (tr : List RenderRec)
    (hok : IdxOk c₁ tr) : IdxOk c₂ tr := by
  induction tr generalizing c₁ c₂ with
  | nil => trivial
  | cons r tr ih =>
    obtain ⟨h1, h2⟩ := hok
    refine ⟨by rw [h1, h r.defn], ?_⟩
    exact ih _ _ (fun d => by by_cases hd : d = r.defn <;> simp [hd, h d]) h2

theorem IdxOk_append (c : String → Int) (t₁ t₂ : List RenderRec)
    (h₁ : IdxOk c t₁) (h₂ : IdxOk (fun d => c d + (nOcc d t₁ : Int)) t₂) :
    IdxOk c (t₁ ++ t₂) := by
  induction t₁ generalizing c with
  | nil =>
    simp only [List.nil_append]
    exact IdxOk_congr _ _ (fun d => by simp [nOcc_nil]) t₂ h₂
  | cons r t₁ ih =>
    obtain ⟨h1, hrest⟩ := h₁
    refine ⟨h1, ?_⟩
    apply ih _ hrest
    apply IdxOk_congr _ _ _ t₂ h₂
    intro d
    rw [nOcc_cons]
    by_cases hd : d = r.defn
    · subst hd
      simp only [if_pos rfl, h1]
      push_cast
      ring
    · have hd2 : ¬ r.defn = d := fun hh => hd hh.symm
      simp only [if_neg hd2, if_neg hd]
      push_cast
      ring

theorem IdxOk_get (c : String → Int) (tr : List RenderRec) (h : IdxOk c tr) :
    ∀ i (hi : i < tr.length),
      (tr.get ⟨i, hi⟩).index =
        c ((tr.get ⟨i, hi⟩).defn) + 1 + (nOcc ((tr.get ⟨i, hi⟩).defn) (tr.take i) : Int) := by
  induction tr generalizing c with
  | nil => intro i hi; exact absurd hi (Nat.not_lt_zero i)
  | cons r tr ih =>
    obtain ⟨h1, h2⟩ := h
    intro i hi
    cases i with
    | zero =>
      simp only [List.get, List.take_zero, nOcc_nil]
      rw [h1]
      push_cast
      ring
    | succ j =>
      have hj : j < tr.length := Nat.lt_of_succ_lt_succ hi
      have hrec := ih _ h2 j hj
      simp only [List.get_cons_succ, List.take_succ_cons]
      rw [hrec, nOcc_cons]
      by_cases hd : (tr.get ⟨j, hj⟩).defn = r.defn
      · rw [hd]
        simp only [if_pos rfl, h1]
        push_cast
        ring
      · have hd2 : ¬ r.defn = (tr.get ⟨j, hj⟩).defn := fun hh => hd hh.symm
        simp only [if_neg hd, if_neg hd2]
        push_cast
        ring

theorem OffsetsArith_get (b s : Int) (tr : List RenderRec) (h : OffsetsArith b s tr) :
    ∀ j (hj : j < tr.length), (tr.get ⟨j, hj⟩).offset = b + j * s := by
  induction tr generalizing b with
  | nil => intro j hj; exact absurd hj (Nat.not_lt_zero j)
  | cons r tr ih =>
    obtain ⟨h1, h2⟩ := h
    intro j hj
    cases j with
    | zero => simpa using h1
    | succ k =>
      have hk : k < tr.length := Nat.lt_of_succ_lt_succ hj
      have hrec := ih _ h2 k hk
      simp only [List.get_cons_succ]
      rw [hrec]
      push_cast
      ring

theorem OffsetsArith_head (b s : Int) (tr : List RenderRec) (h : OffsetsArith b s tr)
    (hne : tr ≠ []) : (tr.head hne).offset = b := by
  cases tr with
  | nil => exact absurd rfl hne
  | cons r tr => exact h.1

/-! ## Include-scanner invariant: every invocation target carries the suffix -/

theorem gti_suffix : ∀ (fuel : Nat) (fs : FS) (locs : List PathC) (path : PathC)
    (l : List PathC), get_template_invocations fs locs fuel path = .ok l →
    ∀ p ∈ l, strEndsWith (pathName p) TEMPLATE_SUFFIX = true := by
  intro fuel
  induction fuel with
  | zero =>
    intro fs locs path l h
    simp [get_template_invocations] at h
  | succ fuel ih =>
    intro fs locs path l h
    have hList : ∀ (ps : List PathC) (rs : List (List PathC)),
        gtiListF (fun p => get_template_invocations fs locs fuel p) ps = .ok rs →
        ∀ l2 ∈ rs, ∀ p ∈ l2, strEndsWith (pathName p) TEMPLATE_SUFFIX = true := by
      intro ps
      induction ps with
      | nil =>
        intro rs h2
        obtain rfl : ([] : List (List PathC)) = rs := by simpa [gtiListF] using h2
        intro l2 hl2
        cases hl2
      | cons p ps ihp =>
        intro rs h2
        simp only [gtiListF] at h2
        split at h2
        · cases h2
        · rename_i r hr
          split at h2
          · cases h2
          · rename_i rs2 hrs2
            obtain rfl : r :: rs2 = rs := by simpa using h2
            intro l2 hl2 q hq
            rcases List.mem_cons.mp hl2 with h3 | h3
            · exact ih fs locs p l2 (h3 ▸ hr) q hq
            · exact ihp rs2 hrs2 l2 h3 q hq
    simp only [get_template_invocations] at h
    split at h
    · cases h
    · rename_i lines hlines
      split at h
      · cases h
      · rename_i recs hrecs
        obtain rfl := by simpa using h
        intro p hp
        rcases List.mem_append.mp hp with hmem | hmem
        · obtain ⟨m, hm, rfl⟩ := List.mem_map.mp hmem
          have := (List.mem_filter.mp hm).2
          exact strEndsWith_pathName_pathJoin _ m this
        · obtain ⟨l2, hl2, hpl2⟩ := List.mem_flatten.mp hmem
          exact hList _ recs hrecs l2 hl2 p hpl2

/-! ## The invocation-loop invariant -/

theorem processInvocations_inv (render : String → Dict → List String)
    (locs : List PathC) (step : Int) (base : Dict) :
    ∀ (invs : List PathC) (st₀ st₁ : LoopSt),
    processInvocations render locs step base invs st₀ = .ok st₁ →
    ∃ Δ : List RenderRec,
      st₁.trace = st₀.trace ++ Δ ∧
      Δ.map (fun r => r.out) = invs ∧
      st₁.invocations = st₀.invocations ++ invs ∧
      st₁.local_template_files = st₀.local_template_files ++ Δ.map (fun r => r.tpath) ∧
      st₁.snippets = st₀.snippets ++ (Δ.map (fun r => r.snips)).flatten ∧
      st₁.offset = st₀.offset + invs.length * step ∧
      (∀ d, cget st₁.counts d (-1) = cget st₀.counts d (-1) + (nOcc d Δ : Int)) ∧
      IdxOk (fun d => cget st₀.counts d (-1)) Δ ∧
      OffsetsArith st₀.offset step Δ ∧
      (∀ r ∈ Δ, r.params = mkTemplateParameters r.tname r.index r.offset base) ∧
      (∀ q, q ∉ invs → SNIPPETS_FOLDER_NAME ∉ q → lookupFS st₁.fs q = lookupFS st₀.fs q) := by
  intro invs
  induction invs with
  | nil =>
    intro st₀ st₁ h
    obtain rfl : st₀ = st₁ := by simpa [processInvocations] using h
    refine ⟨[], by simp, rfl, by simp, by simp, by simp, by simp, ?_, trivial, trivial,
      by simp, fun q _ _ => rfl⟩
    intro d
    simp [nOcc_nil]
  | cons inv rest ih =>
    intro st₀ st₁ h
    simp only [processInvocations] at h
    split at h
    · cases h
    · rename_i template_path template_definition template_name hti
      obtain ⟨Δ2, htr, hout, hinv, hltf, hsnip, hoff, hcnt, hidx, hoffs, hpar, hfrm⟩ :=
        ih _ _ h
      simp only at htr hout hinv hltf hsnip hoff hcnt hfrm
      refine ⟨{ defn := template_definition, tname := template_name, tpath := template_path,
                index := cget st₀.counts template_definition (-1) + 1, offset := st₀.offset,
                out := inv,
                snips := (manufacture_files st₀.fs
                  (render template_definition
                    (mkTemplateParameters template_name
                      (cget st₀.counts template_definition (-1) + 1) st₀.offset base))
                  inv template_path).2,
                params := mkTemplateParameters template_name
                  (cget st₀.counts template_definition (-1) + 1) st₀.offset base } :: Δ2,
             ?_, ?_, ?_, ?_, ?_, ?_, ?_, ?_, ?_, ?_, ?_⟩
      · rw [htr]
        simp
      · rw [List.map_cons, hout]
      · rw [hinv]
        simp
      · rw [hltf]
        simp
      · rw [hsnip]
        simp
      · rw [hoff]
        simp only [List.length_cons]
        push_cast
        ring
      · intro d
        rw [hcnt d, cget_cset, nOcc_cons]
        by_cases hd : d = template_definition
        · subst hd
          simp only [if_pos rfl]
          push_cast
          ring
        · have hd2 : ¬ template_definition = d := fun hh => hd hh.symm
          simp only [if_neg hd, if_neg hd2]
          push_cast
          ring
      · refine ⟨rfl, ?_⟩
        apply IdxOk_congr _ _ _ _ hidx
        intro d
        rw [cget_cset]
      · refine ⟨rfl, ?_⟩
        simpa using hoffs
      · intro r hr
        rcases List.mem_cons.mp hr with hh | hh
        · subst hh
          rfl
        · exact hpar r hh
      · intro q hq hq2
        have hqrest : q ∉ rest := fun hm => hq (List.mem_cons_of_mem inv hm)
        have hqinv : q ≠ inv := fun hm => hq (hm ▸ List.mem_cons_self inv rest)
        rw [hfrm q hqrest hq2]
        exact manufacture_files_frame st₀.fs _ inv template_path q hqinv hq2

/-! ## The traversal-engine invariant -/

theorem build_templates_inv : ∀ (fuel : Nat) (render : String → Dict → List String)
    (locs : List PathC) (step : Int) (config : Dict) (fs : FS) (path : PathC)
    (offset : Int) (counts : Counts) (out : BuildOut),
    build_templates render locs step config fuel fs path offset counts = .ok out →
    BuildClaims config fs offset counts out := by
  intro fuel
  induction fuel with
  | zero =>
    intro render locs step config fs path offset counts out h
    simp [build_templates] at h
  | succ fuel ih =>
    have ihL : ∀ (render : String → Dict → List String) (locs : List PathC) (step : Int)
        (config : Dict) (fs : FS) (invs : List PathC) (offset : Int) (counts : Counts)
        (res : FS × Counts × List (List PathC) × List RenderRec),
        buildListF (fun fs2 p off c => build_templates render locs step config fuel fs2 p off c)
          fs invs offset counts = .ok res →
        BuildListClaims config fs counts res := by
      intro render locs step config fs invs
      induction invs generalizing fs with
      | nil =>
        intro offset counts res h
        obtain rfl : (fs, counts, ([] : List (List PathC)), ([] : List RenderRec)) = res := by
          simpa [buildListF] using h
        refine ⟨fun r hr => absurd hr (List.not_mem_nil r), ?_, trivial, ?_, fun q _ _ => rfl⟩
        · intro d
          simp [nOcc_nil]
        · intro p
          simp
      | cons inv rest ihr =>
        intro offset counts res h
        simp only [buildListF] at h
        split at h
        · cases h
        · rename_i out1 hb1
          split at h
          · cases h
          · rename_i tail htail
            obtain rfl : (tail.1, tail.2.1, out1.produced :: tail.2.2.1,
                out1.trace ++ tail.2.2.2) = res := by simpa using h
            obtain ⟨w1, c1, i1, p1, _, f1⟩ :=
              ih render locs step config fs inv offset counts out1 hb1
            obtain ⟨w2, c2, i2, p2, f2⟩ := ihr out1.fs offset out1.counts tail htail
            refine ⟨?_, ?_, ?_, ?_, ?_⟩
            · intro r hr
              rcases List.mem_append.mp hr with hh | hh
              · exact w1 r hh
              · exact w2 r hh
            · intro d
              rw [c2 d, c1 d, nOcc_append]
              push_cast
              ring
            · refine IdxOk_append _ _ _ i1 ?_
              exact IdxOk_congr _ _ (fun d => c1 d) _ i2
            · intro p
              simp only [List.flatten_cons, List.mem_append]
              rw [p1 p, p2 p]
              constructor
              · rintro (⟨r, hr, hp⟩ | ⟨r, hr, hp⟩)
                · exact ⟨r, Or.inl hr, hp⟩
                · exact ⟨r, Or.inr hr, hp⟩
              · rintro ⟨r, hr | hr, hp⟩
                · exact Or.inl ⟨r, hr, hp⟩
                · exact Or.inr ⟨r, hr, hp⟩
            · intro q hq1 hq2
              rw [f2 q hq1 hq2, f1 q hq1 hq2]
    intro render locs step config fs path offset counts out h
    simp only [build_templates] at h
    split at h
    · cases h
    · rename_i invs hinvs
      split at h
      · cases h
      · rename_i st hst
        split at h
        · cases h
        · rename_i tail htail
          obtain rfl : BuildOut.mk tail.1 tail.2.1
              (st.local_template_files ++ st.snippets ++ tail.2.2.1.flatten)
              (st.trace ++ tail.2.2.2) = out := by simpa using h
          obtain ⟨Δ, htr, hout, hinv, hltf, hsnip, _, hcnt, hidx, hoffs, hpar, hfrm⟩ :=
            processInvocations_inv render locs step config invs _ _ hst
          simp only [List.nil_append] at htr hout hinv hltf hsnip hcnt hfrm
          obtain ⟨w2, c2, i2, p2, f2⟩ :=
            ihL render locs step config st.fs st.invocations st.offset st.counts tail htail
          have hsuf : ∀ p ∈ invs, strEndsWith (pathName p) TEMPLATE_SUFFIX = true :=
            gti_suffix (Nat.succ fuel) fs locs path invs hinvs
          have hnotin : ∀ q, strEndsWith (pathName q) TEMPLATE_SUFFIX = false → q ∉ invs := by
            intro q hq hm
            rw [hsuf q hm] at hq
            cases hq
          refine ⟨?_, ?_, ?_, ?_, ?_, ?_⟩
          · intro r hr
            simp only [htr] at hr
            rcases List.mem_append.mp hr with hh | hh
            · refine ⟨hpar r hh, ?_⟩
              have : r.out ∈ invs := by
                rw [← hout]
                exact List.mem_map_of_mem (fun r => r.out) hh
              exact hsuf r.out this
            · exact w2 r hh
          · intro d
            simp only
            rw [c2 d, hcnt d, htr, nOcc_append]
            push_cast
            ring
          · simp only [htr]
            refine IdxOk_append _ _ _ hidx ?_
            refine IdxOk_congr _ _ ?_ _ i2
            intro d
            rw [hcnt d]
          · intro p
            simp only [hltf, hsnip, htr, List.mem_append]
            rw [p2 p]
            constructor
            · rintro ((hh | hh) | ⟨r, hr, hp⟩)
              · obtain ⟨r, hr, rfl⟩ := List.mem_map.mp hh
                exact ⟨r, Or.inl hr, Or.inl rfl⟩
              · obtain ⟨l2, hl2, hp⟩ := List.mem_flatten.mp hh
                obtain ⟨r, hr, rfl⟩ := List.mem_map.mp hl2
                exact ⟨r, Or.inl hr, Or.inr hp⟩
              · exact ⟨r, Or.inr hr, hp⟩
            · rintro ⟨r, hr | hr, hp | hp⟩
              · exact Or.inl (Or.inl (hp ▸ List.mem_map_of_mem (fun r => r.tpath) hr))
              · refine Or.inl (Or.inr ?_)
                exact List.mem_flatten.mpr ⟨r.snips,
                  List.mem_map_of_mem (fun r => r.snips) hr, hp⟩
              · exact Or.inr ⟨r, hr, Or.inl hp⟩
              · exact Or.inr ⟨r, hr, Or.inr hp⟩
          · intro r0 hr0
            simp only [htr] at hr0
            cases hΔ : Δ with
            | nil =>
              exfalso
              have hinvnil : invs = [] := by
                rw [← hout, hΔ]
                rfl
              have hstinv : st.invocations = [] := by rw [hinv, hinvnil]
              rw [hstinv] at htail
              have htl : (st.fs, st.counts, ([] : List (List PathC)), ([] : List RenderRec)) =
                  tail := by simpa [buildListF] using htail
              rw [hΔ, ← htl] at hr0
              simp at hr0
            | cons r1 Δ2 =>
              rw [hΔ] at hoffs hr0
              simp only [List.cons_append, List.head?_cons, Option.some.injEq] at hr0
              rw [← hr0]
              exact hoffs.1
          · intro q hq1 hq2
            simp only
            rw [f2 q hq1 hq2, hfrm q (hnotin q hq1) hq2]

/-! ## The per-root loop of `main` -/

theorem runRoots_inv : ∀ (render : String → Dict → List String) (locs : List PathC)
    (step : Int) (config : Dict) (fuel : Nat) (fs : FS) (roots : List PathC)
    (fsF : FS) (outs : List BuildOut),
    runRoots render locs step config fuel fs roots = .ok (fsF, outs) →
    ∀ o ∈ outs, IdxOk (fun _ => (-1 : Int)) o.trace ∧
      (∀ r, o.trace.head? = some r → r.offset = 0) := by
  intro render locs step config fuel fs roots
  induction roots generalizing fs with
  | nil =>
    intro fsF outs h
    obtain ⟨-, h2⟩ : fs = fsF ∧ ([] : List BuildOut) = outs := by
      simpa [runRoots, Prod.ext_iff] using h
    intro o ho
    rw [← h2] at ho
    cases ho
  | cons root rest ihr =>
    intro fsF outs h
    simp only [runRoots] at h
    split at h
    · cases h
    · rename_i out1 hb
      split at h
      · cases h
      · rename_i tail htail
        obtain ⟨-, h2⟩ : tail.1 = fsF ∧ out1 :: tail.2 = outs := by
          simpa [Prod.ext_iff] using h
        intro o ho
        rw [← h2] at ho
        rcases List.mem_cons.mp ho with rfl | hmem
        · obtain ⟨-, -, hidx, -, hhead, -⟩ :=
            build_templates_inv fuel render locs step config fs root 0 [] o hb
          exact ⟨IdxOk_congr _ _ (fun d => rfl) _ hidx, hhead⟩
        · exact ihr out1.fs tail.1 tail.2 (by rw [← htail]) o hmem

/-! ## Basic string bridge -/

theorem toList_mk (cs : List Char) : (String.mk cs).toList = cs := rfl

/-! ## Claim C5: resolution outcome discipline -/

/-- C5: definition resolution fails with the not-found error exactly when
zero candidate files exist, fails with the ambiguity error exactly when more
than one exists — the ambiguity message enumerating the matching candidate
paths comma-joined — and its outcome (erasing messages) depends only on the
set of matching candidates: permuting the search locations never changes
it, so two locations each holding a same-named definition always fail
ambiguous regardless of order. -/
theorem C5_resolution_outcomes (fs : FS) (inv : PathC) (locs : List PathC) :
    ((∃ m, template_information fs inv locs = .error (.notFound m)) ↔
      template_locations_of fs inv locs = []) ∧
    ((∃ m, template_information fs inv locs = .error (.multiple m)) ↔
      1 < (template_locations_of fs inv locs).length) ∧
    (1 < (template_locations_of fs inv locs).length →
      template_information fs inv locs = .error (.multiple
        ("Multiple template definitions: " ++ commaJoin (template_locations_of fs inv locs)))) ∧
    (∀ locs2, locs.Perm locs2 →
      outcomeOf (template_information fs inv locs) =
        outcomeOf (template_information fs inv locs2)) := by
  have hperm : ∀ locs2, locs.Perm locs2 →
      (template_locations_of fs inv locs).Perm (template_locations_of fs inv locs2) := by
    intro locs2 h
    exact (h.map _).filter _
  refine ⟨?_, ?_, ?_, ?_⟩
  · rcases hL : template_locations_of fs inv locs with _ | ⟨x, _ | ⟨y, rest⟩⟩ <;>
      simp [template_information, hL]
  · rcases hL : template_locations_of fs inv locs with _ | ⟨x, _ | ⟨y, rest⟩⟩ <;>
      simp [template_information, hL]
  · intro hlen
    rcases hL : template_locations_of fs inv locs with _ | ⟨x, _ | ⟨y, rest⟩⟩ <;>
      rw [hL] at hlen
    · simp at hlen
    · simp at hlen
    · simp [template_information, hL]
  · intro locs2 h2
    have hM := hperm locs2 h2
    rcases hL : template_locations_of fs inv locs with _ | ⟨x, _ | ⟨y, rest⟩⟩ <;> rw [hL] at hM
    · have hL2 : template_locations_of fs inv locs2 = [] := hM.symm.eq_nil
      simp [template_information, hL, hL2, outcomeOf]
    · have hL2 : template_locations_of fs inv locs2 = [x] := List.perm_singleton.mp hM.symm
      simp [template_information, hL, hL2, outcomeOf]
    · have hlen2 : 2 ≤ (template_locations_of fs inv locs2).length := by
        rw [← hM.length_eq]
        simp
      rcases hL2 : template_locations_of fs inv locs2 with _ | ⟨a, _ | ⟨b, rest2⟩⟩ <;>
        rw [hL2] at hlen2
      · simp at hlen2
      · simp at hlen2
      · simp [template_information, hL, hL2, outcomeOf]

/-- Witness for C5 at two locations both holding `b.fppt`: the outcome is
invariant under swapping the locations, and it is the ambiguous outcome. -/
theorem C5_resolution_outcomes_witness :
    outcomeOf (template_information demoFS4 ["b.x.fppt"] [["lib1"], ["lib2"]]) =
      outcomeOf (template_information demoFS4 ["b.x.fppt"] [["lib2"], ["lib1"]]) ∧
    outcomeOf (template_information demoFS4 ["b.x.fppt"] [["lib1"], ["lib2"]]) =
      Outcome.multiple :=
  ⟨(C5_resolution_outcomes demoFS4 ["b.x.fppt"] [["lib1"], ["lib2"]]).2.2.2
      [["lib2"], ["lib1"]] (by decide),
    by decide⟩

/-! ## Claim C6: the naming convention computation -/

/-- C6: for every valid invocation file name `<base>.<tag><template-suffix>`
(base nonempty, tag nonempty and dot-free), resolution computes the
definition relative name by stripping exactly the tag segment and
reattaching the reserved suffix, and returns the tag as the template name;
whenever `template_information` succeeds on such an invocation it returns
exactly these two strings. -/
theorem C6_tagged_name_resolution (base tag : List Char) (hb : base ≠ []) (ht : tag ≠ [])
    (hd : '.' ∉ tag) :
    template_definition_of (String.mk (base ++ '.' :: tag ++ TEMPLATE_SUFFIX.toList)) =
      String.mk (base ++ TEMPLATE_SUFFIX.toList) ∧
    template_name_of (String.mk (base ++ '.' :: tag ++ TEMPLATE_SUFFIX.toList)) =
      String.mk tag ∧
    (∀ (fs : FS) (locs : List PathC) (inv tp : PathC) (td tn : String),
      pathName inv = String.mk (base ++ '.' :: tag ++ TEMPLATE_SUFFIX.toList) →
      template_information fs inv locs = .ok (tp, td, tn) →
      td = String.mk (base ++ TEMPLATE_SUFFIX.toList) ∧ tn = String.mk tag) := by
  have hsufl : TEMPLATE_SUFFIX.toList = '.' :: "fppt".toList := by decide
  have heq : base ++ '.' :: tag ++ TEMPLATE_SUFFIX.toList =
      (base ++ '.' :: tag) ++ '.' :: "fppt".toList := by
    rw [hsufl]
  have h1 : splitLastDot (base ++ '.' :: tag ++ TEMPLATE_SUFFIX.toList) =
      some (base ++ '.' :: tag, "fppt".toList) := by
    rw [heq]
    exact splitLastDot_append _ _ (by decide)
  have h2 : splitLastDot (base ++ '.' :: tag) = some (base, tag) :=
    splitLastDot_append base tag hd
  have hbt : base ++ '.' :: tag ≠ [] := by simp
  have hfne : ("fppt".toList : List Char) ≠ [] := by decide
  have hstem : py_stem (base ++ '.' :: tag ++ TEMPLATE_SUFFIX.toList) = base ++ '.' :: tag := by
    unfold py_stem
    rw [h1]
    simp [hbt, hfne]
  have hsuffx : py_suffix (base ++ '.' :: tag ++ TEMPLATE_SUFFIX.toList) =
      TEMPLATE_SUFFIX.toList := by
    unfold py_suffix
    rw [h1, hsufl]
    simp [hbt, hfne]
  have hstem2 : py_stem (base ++ '.' :: tag) = base := by
    unfold py_stem
    rw [h2]
    simp [hb, ht]
  have hsuffx2 : py_suffix (base ++ '.' :: tag) = '.' :: tag := by
    unfold py_suffix
    rw [h2]
    simp [hb, ht]
  have hP1 : template_definition_of (String.mk (base ++ '.' :: tag ++ TEMPLATE_SUFFIX.toList)) =
      String.mk (base ++ TEMPLATE_SUFFIX.toList) := by
    unfold template_definition_of
    rw [toList_mk, hstem, hsuffx, hstem2]
  have hP2 : template_name_of (String.mk (base ++ '.' :: tag ++ TEMPLATE_SUFFIX.toList)) =
      String.mk tag := by
    unfold template_name_of
    rw [toList_mk, hstem, hsuffx2]
    congr 1
    rw [List.dropWhile_cons]
    simp only [decide_eq_true_eq, if_pos rfl]
    exact dropWhile_eq_self_of_not_mem tag '.' hd
  refine ⟨hP1, hP2, ?_⟩
  intro fs locs inv tp td tn hname hti
  unfold template_information at hti
  rcases hL : template_locations_of fs inv locs with _ | ⟨x, _ | ⟨y, rest⟩⟩ <;>
    rw [hL] at hti <;> simp only at hti
  · cases hti
  · have : x = tp ∧ template_definition_of (pathName inv) = td ∧
        template_name_of (pathName inv) = tn := by
      simpa [Prod.ext_iff] using hti
    obtain ⟨-, h3, h4⟩ := this
    rw [hname] at h3 h4
    constructor
    · rw [← h3]
      exact hP1
    · rw [← h4]
      exact hP2
  · cases hti

/-- Witness for C6 at the invocation name `a.tag.fppt`: the definition
relative name is `a.fppt` and the template name is `tag`. -/
theorem C6_tagged_name_resolution_witness :
    template_definition_of
        (String.mk ("a".toList ++ '.' :: "tag".toList ++ TEMPLATE_SUFFIX.toList)) =
      String.mk ("a".toList ++ TEMPLATE_SUFFIX.toList) ∧
    template_name_of
        (String.mk ("a".toList ++ '.' :: "tag".toList ++ TEMPLATE_SUFFIX.toList)) =
      String.mk ("tag".toList) :=
  ⟨(C6_tagged_name_resolution ("a".toList) ("tag".toList) (by decide) (by decide)
      (by decide)).1,
   (C6_tagged_name_resolution ("a".toList) ("tag".toList) (by decide) (by decide)
      (by decide)).2.1⟩

/-! ## Claim C10: invocation names without a tag segment -/

/-- C10: an invocation whose file name carries the reserved suffix but no
tag segment (`<base><template-suffix>` with a dot-free nonempty base)
resolves with the empty string as template name and a definition relative
name equal to its own file name; consequently, when the configuration does
not bind `template_name`, the parameter handed to the renderer under
`template_name` is the empty string. -/
theorem C10_untagged_invocation (base : List Char) (hb : base ≠ []) (hd : '.' ∉ base) :
    template_definition_of (String.mk (base ++ TEMPLATE_SUFFIX.toList)) =
      String.mk (base ++ TEMPLATE_SUFFIX.toList) ∧
    template_name_of (String.mk (base ++ TEMPLATE_SUFFIX.toList)) = String.mk [] ∧
    (∀ (fs : FS) (locs : List PathC) (inv tp : PathC) (td tn : String),
      pathName inv = String.mk (base ++ TEMPLATE_SUFFIX.toList) →
      template_information fs inv locs = .ok (tp, td, tn) →
      td = pathName inv ∧ tn = String.mk []) ∧
    (∀ (idx off : Int) (config : Dict),
      dlookup (dictLit config) "template_name" = none →
      dlookup (mkTemplateParameters (String.mk []) idx off config) "template_name" =
        some (Value.str (String.mk []))) := by
  have hsufl : TEMPLATE_SUFFIX.toList = '.' :: "fppt".toList := by decide
  have h1 : splitLastDot (base ++ TEMPLATE_SUFFIX.toList) = some (base, "fppt".toList) := by
    rw [hsufl]
    exact splitLastDot_append _ _ (by decide)
  have hfne : ("fppt".toList : List Char) ≠ [] := by decide
  have hstem : py_stem (base ++ TEMPLATE_SUFFIX.toList) = base := by
    unfold py_stem
    rw [h1]
    simp [hb, hfne]
  have hsuffx : py_suffix (base ++ TEMPLATE_SUFFIX.toList) = TEMPLATE_SUFFIX.toList := by
    unfold py_suffix
    rw [h1, hsufl]
    simp [hb, hfne]
  have hnod : splitLastDot base = none := splitLastDot_eq_none base hd
  have hstem2 : py_stem base = base := by
    unfold py_stem
    rw [hnod]
  have hsuffx2 : py_suffix base = [] := by
    unfold py_suffix
    rw [hnod]
  have hP1 : template_definition_of (String.mk (base ++ TEMPLATE_SUFFIX.toList)) =
      String.mk (base ++ TEMPLATE_SUFFIX.toList) := by
    unfold template_definition_of
    rw [toList_mk, hstem, hsuffx, hstem2]
  have hP2 : template_name_of (String.mk (base ++ TEMPLATE_SUFFIX.toList)) = String.mk [] := by
    unfold template_name_of
    rw [toList_mk, hstem, hsuffx2]
    rfl
  refine ⟨hP1, hP2, ?_, ?_⟩
  · intro fs locs inv tp td tn hname hti
    unfold template_information at hti
    rcases hL : template_locations_of fs inv locs with _ | ⟨x, _ | ⟨y, rest⟩⟩ <;>
      rw [hL] at hti <;> simp only at hti
    · cases hti
    · have : x = tp ∧ template_definition_of (pathName inv) = td ∧
          template_name_of (pathName inv) = tn := by
        simpa [Prod.ext_iff] using hti
      obtain ⟨-, h3, h4⟩ := this
      rw [hname] at h3 h4
      constructor
      · rw [← h3, hname]
        exact hP1
      · rw [← h4]
        exact hP2
    · cases hti
  · intro idx off config hcfg
    rw [dlookup_mkTemplateParameters, hcfg]
    rfl

/-- Witness for C10 at the invocation name `a.fppt` and empty configuration:
it resolves against a definition named identically to itself, with template
name the empty string, which is then the `template_name` parameter. -/
theorem C10_untagged_invocation_witness :
    template_definition_of (String.mk ("a".toList ++ TEMPLATE_SUFFIX.toList)) =
      String.mk ("a".toList ++ TEMPLATE_SUFFIX.toList) ∧
    template_name_of (String.mk ("a".toList ++ TEMPLATE_SUFFIX.toList)) = String.mk [] ∧
    dlookup (mkTemplateParameters (String.mk []) 0 0 []) "template_name" =
      some (Value.str (String.mk [])) :=
  ⟨(C10_untagged_invocation ("a".toList) (by decide) (by decide)).1,
   (C10_untagged_invocation ("a".toList) (by decide) (by decide)).2.1,
   (C10_untagged_invocation ("a".toList) (by decide) (by decide)).2.2.2 0 0 [] rfl⟩

/-! ## Claim C8: snippet propagation -/

/-- C8: a missing snippet directory beside the template definition yields a
successful write with an empty list of copied snippets, and when it is
present, every file beneath it is copied to the corresponding relative path
under the snippet directory beside the output, overwriting any existing
file at that destination. -/
theorem C8_snippet_copy (fs : FS) (data : List String) (output_file base_template : PathC)
    (hnodup : (fs.map (fun e => e.1)).Nodup) :
    ((∀ e ∈ fs, ¬ ((pathParent base_template ++ [SNIPPETS_FOLDER_NAME]) <+: e.1 ∧
        e.1 ≠ pathParent base_template ++ [SNIPPETS_FOLDER_NAME])) →
      (manufacture_files fs data output_file base_template).2 = [] ∧
      (manufacture_files fs data output_file base_template).1 = fsWrite fs output_file data) ∧
    (∀ rel content, rel ≠ [] →
      lookupFS fs ((pathParent base_template ++ [SNIPPETS_FOLDER_NAME]) ++ rel) =
        some content →
      lookupFS (manufacture_files fs data output_file base_template).1
        ((pathParent output_file ++ [SNIPPETS_FOLDER_NAME]) ++ rel) = some content) := by
  constructor
  · intro habs
    have hwalk : fs.filter (fun e =>
        decide ((pathParent base_template ++ [SNIPPETS_FOLDER_NAME]) <+: e.1 ∧
          e.1 ≠ pathParent base_template ++ [SNIPPETS_FOLDER_NAME])) = [] := by
      apply List.filter_eq_nil_iff.mpr
      intro e he
      simpa using habs e he
    unfold manufacture_files
    simp only [hwalk, List.foldl_nil, List.map_nil]
    constructor <;> trivial
  · intro rel content hrel hsrc
    exact manufacture_files_copies fs data output_file base_template rel content
      hnodup hrel hsrc

/-- Witness for C8: in `demoFS1` there is no snippet directory beside
`a.fppt`, so the write yields zero snippets; in `demoFS3` the snippet file
`sub/readme.txt` is copied beside the output `a.x.fppt`. -/
theorem C8_snippet_copy_witness :
    ((manufacture_files demoFS1 ["x"] ["a.x.fppt"]
        ["lib", "topology-templates", "a.fppt"]).2 = [] ∧
      (manufacture_files demoFS1 ["x"] ["a.x.fppt"]
        ["lib", "topology-templates", "a.fppt"]).1 = fsWrite demoFS1 ["a.x.fppt"] ["x"]) ∧
    lookupFS (manufacture_files demoFS3 ["x"] ["a.x.fppt"]
        ["lib", "topology-templates", "a.fppt"]).1
      ((pathParent ["a.x.fppt"] ++ [SNIPPETS_FOLDER_NAME]) ++ ["sub", "readme.txt"]) =
      some ["hello"] :=
  ⟨(C8_snippet_copy demoFS1 ["x"] ["a.x.fppt"] ["lib", "topology-templates", "a.fppt"]
      (by decide)).1 (by decide),
   (C8_snippet_copy demoFS3 ["x"] ["a.x.fppt"] ["lib", "topology-templates", "a.fppt"]
      (by decide)).2 ["sub", "readme.txt"] ["hello"] (by decide) (by decide)⟩

/-! ## Claim C4: instance-index discipline -/

/-- C4: over one run of `build_templates` started with a fresh counter
table, the index of the `i`-th rendered invocation equals the number of
earlier rendered invocations of the same template definition, in strict
discovery order across the entire run: indices per definition are exactly
0, 1, 2, …, with the counter table shared across all branches. -/
theorem C4_instance_indices (render : String → Dict → List String) (locs : List PathC)
    (step : Int) (config : Dict) (fuel : Nat) (fs : FS) (path : PathC) (offset : Int)
    (out : BuildOut)
    (h : build_templates render locs step config fuel fs path offset [] = .ok out) :
    ∀ i (hi : i < out.trace.length),
      (out.trace.get ⟨i, hi⟩).index =
        (((out.trace.take i).filter
          (fun r => decide (r.defn = (out.trace.get ⟨i, hi⟩).defn))).length : Int) := by
  obtain ⟨-, -, hidx, -, -, -⟩ :=
    build_templates_inv fuel render locs step config fs path offset [] out h
  have hidx2 : IdxOk (fun _ => (-1 : Int)) out.trace :=
    IdxOk_congr _ _ (fun d => rfl) _ hidx
  intro i hi
  have hg := IdxOk_get _ _ hidx2 i hi
  rw [hg]
  unfold nOcc
  push_cast
  ring

/-- Witness for C4 at the spec scenario (`topo.fpp` invoking `a.fppt`
twice, step 2): the second invocation of `a.fppt` has index 1 = the number
of earlier invocations of `a.fppt`. -/
theorem C4_instance_indices_witness :
    (build_templates demoRender0 [["lib"]] 2 [] 4 demoFS6 ["topo.fpp"] 0 [] =
      .ok demo6Out) ∧
    (demo6Out.trace.get ⟨1, by decide⟩).index =
      (((demo6Out.trace.take 1).filter
        (fun r => decide (r.defn = (demo6Out.trace.get ⟨1, by decide⟩).defn))).length : Int) :=
  ⟨by decide,
   C4_instance_indices demoRender0 [["lib"]] 2 [] 4 demoFS6 ["topo.fpp"] 0 demo6Out
     (by decide) 1 (by decide)⟩

/-! ## Claim C7: plain includes are never written -/

/-- C7: every rendered-output write of a run targets an invocation path
whose file name ends with the reserved template suffix, and any path that
neither carries the suffix nor lies below a `snippets` directory is left
untouched by the run: a plain include is scanned but never rendered and
never written. -/
theorem C7_plain_includes_unwritten (render : String → Dict → List String)
    (locs : List PathC) (step : Int) (config : Dict) (fuel : Nat) (fs : FS) (path : PathC)
    (offset : Int) (counts : Counts) (out : BuildOut)
    (h : build_templates render locs step config fuel fs path offset counts = .ok out) :
    (∀ r ∈ out.trace, strEndsWith (pathName r.out) TEMPLATE_SUFFIX = true) ∧
    (∀ q, strEndsWith (pathName q) TEMPLATE_SUFFIX = false → SNIPPETS_FOLDER_NAME ∉ q →
      lookupFS out.fs q = lookupFS fs q) := by
  obtain ⟨hw, -, -, -, -, hf⟩ :=
    build_templates_inv fuel render locs step config fs path offset counts out h
  exact ⟨fun r hr => (hw r hr).2, hf⟩

/-- Witness for C7: in the single-invocation demo run, the sole rendered
output carries the suffix, and the plain (non-suffix) root file is
untouched. -/
theorem C7_plain_includes_unwritten_witness :
    (build_templates demoRender0 [["lib"]] 1 [] 4 demoFS1 ["root.fpp"] 0 [] =
      .ok demo1Out) ∧
    strEndsWith (pathName (demo1Out.trace.get ⟨0, by decide⟩).out) TEMPLATE_SUFFIX = true ∧
    lookupFS demo1Out.fs ["root.fpp"] = lookupFS demoFS1 ["root.fpp"] :=
  ⟨by decide,
   (C7_plain_includes_unwritten demoRender0 [["lib"]] 1 [] 4 demoFS1 ["root.fpp"] 0 []
     demo1Out (by decide)).1 _ (by decide),
   (C7_plain_includes_unwritten demoRender0 [["lib"]] 1 [] 4 demoFS1 ["root.fpp"] 0 []
     demo1Out (by decide)).2 ["root.fpp"] (by decide) (by decide)⟩

/-! ## Claim C2: configuration overrides computed keys -/

/-- C2 counterexample: a configuration binding `template_offset` to 999 is
what the renderer receives, although the computed offset of the sole
invocation is 0 — the configuration entry overrides the computed key, not
the other way around, so the claim that computed keys take precedence is
false. -/
theorem C2_counterexample :
    (build_templates demoRender0 [["lib"]] 1 demoCfg 4 demoFS1 ["root.fpp"] 0 []).map
      (fun o => o.trace.map (fun r => (r.offset, dlookup r.params ("template_offset")))) =
      .ok [((0 : Int), some (Value.int 999))] ∧
    some (Value.int 999) ≠ some (Value.int (0 : Int)) :=
  ⟨by decide, by decide⟩

/-- C2 amended: the parameter set handed to the renderer is exactly the
three computed keys merged with the top-level configuration entries, where
on a key collision the configuration entry takes precedence and the
computed keys are only the fallback. -/
theorem C2_amended_config_precedence (render : String → Dict → List String)
    (locs : List PathC) (step : Int) (config : Dict) (fuel : Nat) (fs : FS) (path : PathC)
    (offset : Int) (counts : Counts) (out : BuildOut)
    (h : build_templates render locs step config fuel fs path offset counts = .ok out) :
    ∀ r ∈ out.trace, ∀ k,
      dlookup r.params k =
        (dlookup (dictLit config) k).or
          (dlookup (dictLit [("template_name", Value.str r.tname),
                             ("template_index", Value.int r.index),
                             ("template_offset", Value.int r.offset)]) k) := by
  obtain ⟨hw, -, -, -, -, -⟩ :=
    build_templates_inv fuel render locs step config fs path offset counts out h
  intro r hr k
  rw [(hw r hr).1]
  exact dlookup_mkTemplateParameters _ _ _ _ _

/-- Witness for C2 amended, at the colliding-configuration demo run and the
key `template_offset`. -/
theorem C2_amended_config_precedence_witness :
    (build_templates demoRender0 [["lib"]] 1 demoCfg 4 demoFS1 ["root.fpp"] 0 [] =
      .ok demoCfgOut) ∧
    dlookup ((demoCfgOut.trace.get ⟨0, by decide⟩).params) "template_offset" =
      (dlookup (dictLit demoCfg) "template_offset").or
        (dlookup (dictLit [("template_name",
            Value.str (demoCfgOut.trace.get ⟨0, by decide⟩).tname),
          ("template_index", Value.int (demoCfgOut.trace.get ⟨0, by decide⟩).index),
          ("template_offset", Value.int (demoCfgOut.trace.get ⟨0, by decide⟩).offset)])
          "template_offset") :=
  ⟨by decide,
   C2_amended_config_precedence demoRender0 [["lib"]] 1 demoCfg 4 demoFS1 ["root.fpp"] 0 []
     demoCfgOut (by decide) _ (by decide) "template_offset"⟩

/-! ## Claim C1: the offset sequence -/

/-- C1 counterexample: with step 1 and start offset 0, a root with two
sibling invocations whose rendered outputs each declare one further
invocation produces the offset sequence [0, 1, 2, 2] in discovery order:
both recursive calls start from the same post-batch offset (a Python int is
passed by value), so two rendered invocations share offset 2 and the global
sequence is not strictly increasing by the step. -/
theorem C1_counterexample :
    (build_templates demoRenderBranch [["lib"]] 1 [] 6 demoFS2 ["root.fpp"] 0 []).map
      (fun o => o.trace.map (fun r => (r.out, r.offset))) =
      .ok [(["a.x.fppt"], 0), (["b.y.fppt"], 1), (["c.z.fppt"], 2), (["d.w.fppt"], 2)] ∧
    ¬ ([0, 1, 2, 2] : List Int).Nodup :=
  ⟨by decide, by decide⟩

/-- C1 amended: within the flattened invocation batch of a single
`build_templates` call, offsets advance by exactly `step` per rendered
invocation starting from the call's offset argument, and the loop leaves
the offset at `offset + n·step`; that single value is what every recursive
call receives, so offsets form per-batch arithmetic progressions rather
than one globally strictly increasing sequence. -/
theorem C1_amended_batch_offsets (render : String → Dict → List String)
    (locs : List PathC) (step : Int) (base : Dict) (invs : List PathC) (st₀ st₁ : LoopSt)
    (h : processInvocations render locs step base invs st₀ = .ok st₁) :
    ∃ Δ : List RenderRec, st₁.trace = st₀.trace ++ Δ ∧ Δ.length = invs.length ∧
      (∀ j (hj : j < Δ.length), (Δ.get ⟨j, hj⟩).offset = st₀.offset + j * step) ∧
      st₁.offset = st₀.offset + invs.length * step := by
  obtain ⟨Δ, htr, hout, -, -, -, hoff, -, -, hoffs, -, -⟩ :=
    processInvocations_inv render locs step base invs st₀ st₁ h
  refine ⟨Δ, htr, ?_, OffsetsArith_get _ _ _ hoffs, hoff⟩
  rw [← hout]
  simp

/-- Witness for C1 amended, at the two-invocation batch of `demoFS6` with
step 2 from offset 0. -/
theorem C1_amended_batch_offsets_witness :
    (processInvocations demoRender0 [["lib"]] 2 [] [["a.x.fppt"], ["a.y.fppt"]] demoLoopSt =
      .ok demoLoopOut) ∧
    (∃ Δ : List RenderRec, demoLoopOut.trace = demoLoopSt.trace ++ Δ ∧
      Δ.length = ([["a.x.fppt"], ["a.y.fppt"]] : List PathC).length ∧
      (∀ j (hj : j < Δ.length), (Δ.get ⟨j, hj⟩).offset = demoLoopSt.offset + j * 2) ∧
      demoLoopOut.offset = demoLoopSt.offset +
        ([["a.x.fppt"], ["a.y.fppt"]] : List PathC).length * 2) :=
  ⟨by decide,
   C1_amended_batch_offsets demoRender0 [["lib"]] 2 [] [["a.x.fppt"], ["a.y.fppt"]]
     demoLoopSt demoLoopOut (by decide)⟩

/-! ## Claim C3: the returned collection of produced paths -/

/-- C3 counterexample: in a run with one rendered invocation, `a.x.fppt`
was rendered and written (it is the sole trace entry's output) yet the
returned produced collection holds only the template-definition path:
invocation output paths are not members of the return value. -/
theorem C3_counterexample :
    (build_templates demoRender0 [["lib"]] 1 [] 4 demoFS1 ["root.fpp"] 0 []).map
      (fun o => (o.produced, o.trace.map (fun r => r.out))) =
      .ok ([["lib", "topology-templates", "a.fppt"]], [["a.x.fppt"]]) ∧
    (["a.x.fppt"] : PathC) ∉ ([["lib", "topology-templates", "a.fppt"]] : List PathC) :=
  ⟨by decide, by decide⟩

/-- C3 amended: the returned collection is exactly the template-definition
paths used and the snippet source files copied, accumulated over this call
and every recursive call; invocation output paths are not included. -/
theorem C3_amended_produced_paths (render : String → Dict → List String)
    (locs : List PathC) (step : Int) (config : Dict) (fuel : Nat) (fs : FS) (path : PathC)
    (offset : Int) (counts : Counts) (out : BuildOut)
    (h : build_templates render locs step config fuel fs path offset counts = .ok out) :
    ∀ p, p ∈ out.produced ↔ ∃ r ∈ out.trace, p = r.tpath ∨ p ∈ r.snips := by
  obtain ⟨-, -, -, hp, -, -⟩ :=
    build_templates_inv fuel render locs step config fs path offset counts out h
  exact hp

/-- Witness for C3 amended: in the snippet demo run, the copied snippet
source is a member of the returned collection. -/
theorem C3_amended_produced_paths_witness :
    (build_templates demoRender0 [["lib"]] 1 [] 4 demoFS3 ["root.fpp"] 0 [] =
      .ok demo3Out) ∧
    (["lib", "topology-templates", "snippets", "sub", "readme.txt"] : PathC) ∈
      demo3Out.produced :=
  ⟨by decide,
   (C3_amended_produced_paths demoRender0 [["lib"]] 1 [] 4 demoFS3 ["root.fpp"] 0 []
     demo3Out (by decide) _).mpr
     ⟨demo3Out.trace.get ⟨0, by decide⟩, by decide, Or.inr (by decide)⟩⟩

/-! ## Claim C9: fresh state per root file -/

/-- C9: every root file's traversal begins with a fresh empty counter table
and start offset 0: in each root's result, the `i`-th record's index is the
count of earlier same-definition records within that root's own trace, and
the first rendered invocation of the root receives offset 0 — sequences
restart per root rather than continuing across the list of roots. -/
theorem C9_fresh_state_per_root (render : String → Dict → List String)
    (locs : List PathC) (step : Int) (config : Dict) (fuel : Nat) (fs : FS)
    (roots : List PathC) (fsF : FS) (outs : List BuildOut)
    (h : runRoots render locs step config fuel fs roots = .ok (fsF, outs)) :
    ∀ o ∈ outs,
      (∀ i (hi : i < o.trace.length),
        (o.trace.get ⟨i, hi⟩).index =
          (((o.trace.take i).filter
            (fun r => decide (r.defn = (o.trace.get ⟨i, hi⟩).defn))).length : Int)) ∧
      (∀ r, o.trace.head? = some r → r.offset = 0) := by
  intro o ho
  obtain ⟨hidx, hhead⟩ := runRoots_inv render locs step config fuel fs roots fsF outs h o ho
  refine ⟨?_, hhead⟩
  intro i hi
  have hg := IdxOk_get _ _ hidx i hi
  rw [hg]
  unfold nOcc
  push_cast
  ring

/-- Witness for C9 at the two-root demo: the second root's sole invocation
of `a.fppt` gets index 0 and offset 0 again, although the first root
already invoked `a.fppt`. -/
theorem C9_fresh_state_per_root_witness :
    (runRoots demoRender0 [["lib"]] 1 [] 4 demoFS5 [["root1.fpp"], ["root2.fpp"]] =
      .ok (demo5Res.1, demo5Res.2)) ∧
    ((demo5Res.2.get ⟨1, by decide⟩).trace.get ⟨0, by decide⟩).index =
      ((((demo5Res.2.get ⟨1, by decide⟩).trace.take 0).filter
        (fun r => decide (r.defn =
          ((demo5Res.2.get ⟨1, by decide⟩).trace.get ⟨0, by decide⟩).defn))).length : Int) ∧
    ((demo5Res.2.get ⟨1, by decide⟩).trace.get ⟨0, by decide⟩).offset = 0 :=
  ⟨by decide,
   (C9_fresh_state_per_root demoRender0 [["lib"]] 1 [] 4 demoFS5
     [["root1.fpp"], ["root2.fpp"]] demo5Res.1 demo5Res.2 (by decide)
     (demo5Res.2.get ⟨1, by decide⟩) (by decide)).1 0 (by decide),
   (C9_fresh_state_per_root demoRender0 [["lib"]] 1 [] 4 demoFS5
     [["root1.fpp"], ["root2.fpp"]] demo5Res.1 demo5Res.2 (by decide)
     (demo5Res.2.get ⟨1, by decide⟩) (by decide)).2
     ((demo5Res.2.get ⟨1, by decide⟩).trace.get ⟨0, by decide⟩) (by decide)⟩

end TemplateMaker
